/-
Verification of the simulation core of the tetris implementation in
src/tetris/tetris.cpp.

The C++ code is shallowly embedded: the board (class Playfield) becomes a
list of rows of blocks, the active tetromino (class ITetromino) becomes a
record holding the same fields as the C++ object, and each C++ member
function becomes a pure Lean function that takes the implicit receivers
(the playfield singleton, the timer's current tick value) as explicit
arguments.  SDL types are reduced to what the functions actually use:
SDL_Color is an opaque Nat, Uint32 tick counts are Nat (the code only ever
subtracts later ticks from earlier ones, so 32-bit wraparound is outside
the modelled domain and the theorems put the corresponding monotonicity
hypotheses in).  C++ int becomes Int.
-/
import Mathlib

/-! ## Constants (tetris.cpp lines 17-26, 79) -/

def CELL_COLUMNS : Int := 10

def CELL_ROWS : Int := 22

def LOCK_DELAY_MILLISECONDS : Nat := 500

/-! ## Board data model (struct Cell, Playfield::Block, Playfield::Row) -/

structure Cell where
  column : Int
  row : Int
deriving DecidableEq

def noCell : Cell := { column := 0, row := 0 }

structure Block where
  color : Nat
  filled : Bool
deriving DecidableEq

def emptyBlock : Block := { color := 0, filled := false }

abbrev Row := List Block

abbrev Board := List Row

def emptyRow : Row := List.replicate 10 emptyBlock

def emptyBoard22 : Board := List.replicate 22 emptyRow

/-! ## Playfield collision queries (tetris.cpp lines 753-758 and 774-779) -/

/-- Embedding of the private overload Playfield::isFilled(int column, int row):
row < 0 || row >= CELL_ROWS || column < 0 || column >= CELL_COLUMNS ||
mPlayfield[row][column].filled. -/
def Playfield.isFilledAt (b : Board) (column row : Int) : Bool :=
  decide (row < 0) || decide (CELL_ROWS ≤ row)
    || decide (column < 0) || decide (CELL_COLUMNS ≤ column)
    || ((b.getD row.toNat []).getD column.toNat emptyBlock).filled

/-- Embedding of Playfield::isFilled(const Cells&): any_of over the cells. -/
def Playfield.isFilled (b : Board) (cells : List Cell) : Bool :=
  cells.any fun c => Playfield.isFilledAt b c.column c.row

/-! ## Playfield::onLanding (tetris.cpp lines 712-736) -/

/-- One assignment of the marking loop of Playfield::onLanding:
mPlayfield.at(cell.row).at(cell.column).filled = true and .color = color. -/
def Playfield.markCell (b : Board) (c : Cell) (color : Nat) : Board :=
  b.set c.row.toNat
    ((b.getD c.row.toNat []).set c.column.toNat { color := color, filled := true })

/-- The whole marking loop of Playfield::onLanding. -/
def Playfield.markCells (b : Board) (cells : List Cell) (color : Nat) : Board :=
  cells.foldl (fun acc c => Playfield.markCell acc c color) b

/-- The all_of test of Playfield::onLanding: every block of the row is filled. -/
def isFullRow (r : Row) : Bool :=
  r.all fun blk => blk.filled

/-- The erase loop of Playfield::onLanding: scan the rows from top to bottom,
drop each full row and count it.  Returns the surviving rows in order and the
number of dropped rows. -/
def clearFullRows : Board → Board × Nat
  | [] => ([], 0)
  | r :: rest =>
    let p := clearFullRows rest
    if isFullRow r then (p.1, p.2 + 1) else (r :: p.1, p.2)

/-- Embedding of Playfield::onLanding: mark the landed cells filled, remove
all full rows, prepend as many fresh empty rows at the top, return the new
board together with the number of removed rows. -/
def Playfield.onLanding (b : Board) (cells : List Cell) (color : Nat) : Board × Nat :=
  let marked := Playfield.markCells b cells color
  let p := clearFullRows marked
  (List.replicate p.2 emptyRow ++ p.1, p.2)

/-! ## Playfield::getLandingSpot (tetris.cpp lines 738-751)

The C++ loop runs forever in the abstract (it is a for(;;) loop), so it is
embedded with explicit fuel; the termination theorem for claim C10 shows the
fuel bound landingFuel always suffices for the 4-cell inputs the game uses,
and Playfield.getLandingSpot runs the loop with that bound. -/

/-- The inner for loop of getLandingSpot: some cell of the set has a blocked
cell directly below it. -/
def blockedBelow (b : Board) (cells : List Cell) : Bool :=
  cells.any fun c => Playfield.isFilledAt b c.column (c.row + 1)

/-- The descent step of getLandingSpot: ++cell.row for every cell. -/
def descendCells (cells : List Cell) : List Cell :=
  cells.map fun c => { c with row := c.row + 1 }

def getLandingSpotFuel (b : Board) : Nat → List Cell → Option (List Cell)
  | 0, _ => none
  | fuel + 1, cells =>
    if blockedBelow b cells then some cells
    else getLandingSpotFuel b fuel (descendCells cells)

def landingFuel (cells : List Cell) : Nat :=
  (CELL_ROWS - (cells.headD noCell).row).toNat + 1

def Playfield.getLandingSpot (b : Board) (cells : List Cell) : List Cell :=
  (getLandingSpotFuel b (landingFuel cells) cells).getD cells

/-! ## Tetromino pieces (class ITetromino and its 7 subclasses)

Only the parts of ITetromino that the claims touch are embedded: the shape
bitmask tables, split, lock/unlock, the sideways moves, softDrop and
hardDrop.  Rotation (the kick tables) and spawning are not needed by any
claim. -/

inductive TKind
  | I
  | O
  | T
  | J
  | L
  | S
  | Z
deriving DecidableEq

inductive TState
  | up
  | right
  | down
  | left
deriving DecidableEq

/-- The per-orientation 16-bit shape masks of the 7 piece subclasses
(tetris.cpp lines 138, 147, 154, 160, 166, 172, 178). -/
def shapeOf : TKind → TState → Nat
  | TKind.I, TState.up => 0x000F
  | TKind.I, TState.right => 0x8888
  | TKind.I, TState.down => 0x000F
  | TKind.I, TState.left => 0x8888
  | TKind.O, _ => 0x00CC
  | TKind.T, TState.up => 0x004E
  | TKind.T, TState.right => 0x08C8
  | TKind.T, TState.down => 0x00E4
  | TKind.T, TState.left => 0x04C4
  | TKind.J, TState.up => 0x008E
  | TKind.J, TState.right => 0x0C88
  | TKind.J, TState.down => 0x00E2
  | TKind.J, TState.left => 0x044C
  | TKind.L, TState.up => 0x002E
  | TKind.L, TState.right => 0x088C
  | TKind.L, TState.down => 0x00E8
  | TKind.L, TState.left => 0x0C44
  | TKind.S, TState.up => 0x006C
  | TKind.S, TState.right => 0x08C4
  | TKind.S, TState.down => 0x006C
  | TKind.S, TState.left => 0x08C4
  | TKind.Z, TState.up => 0x00C6
  | TKind.Z, TState.right => 0x04C8
  | TKind.Z, TState.down => 0x00C6
  | TKind.Z, TState.left => 0x04C8

/-- The SDL_Color of each subclass, packed RGBA. -/
def colorOf : TKind → Nat
  | TKind.I => 0x00E6E6AA
  | TKind.O => 0xE6E600AA
  | TKind.T => 0xE600E6AA
  | TKind.J => 0x0072FBAA
  | TKind.L => 0xE69500AA
  | TKind.S => 0x00E600AA
  | TKind.Z => 0xE60000AA

/-- The mutable state of an ITetromino object (tetris.cpp lines 118-124)
together with its dynamic type. -/
structure Tetromino where
  kind : TKind
  mLeft : Int
  mBottom : Int
  mState : TState
  mLockTicks : Nat
  mLocking : Bool
deriving DecidableEq

/-- Embedding of ITetromino::split(int left, int bottom, State): the cells of
the 4x4 bitmask, bit i set giving the cell at
(left + i % 4, bottom - 4 + i / 4), collected in increasing i. -/
def splitCells (k : TKind) (left bottom : Int) (st : TState) : List Cell :=
  ((List.range 16).filter fun i => (shapeOf k st) &&& (0x8000 >>> i) != 0).map
    fun i => { column := left + Int.ofNat (i % 4), row := bottom - 4 + Int.ofNat (i / 4) }

def Tetromino.split (p : Tetromino) : List Cell :=
  splitCells p.kind p.mLeft p.mBottom p.mState

/-- ITetromino::lock (tetris.cpp lines 511-515). -/
def Tetromino.lock (p : Tetromino) (ticksNow : Nat) : Tetromino :=
  { p with mLocking := true, mLockTicks := ticksNow }

/-- ITetromino::unlock (tetris.cpp lines 517-524): clear mLocking only if the
cells one row below are no longer blocked, and always restamp mLockTicks. -/
def Tetromino.unlock (b : Board) (p : Tetromino) (ticksNow : Nat) : Tetromino :=
  if Playfield.isFilled b (splitCells p.kind p.mLeft (p.mBottom + 1) p.mState)
  then { p with mLockTicks := ticksNow }
  else { p with mLocking := false, mLockTicks := ticksNow }

/-- ITetromino::moveLeft (tetris.cpp lines 418-425). -/
def moveLeft (b : Board) (ticksNow : Nat) (p : Tetromino) : Tetromino :=
  if Playfield.isFilled b (splitCells p.kind (p.mLeft - 1) p.mBottom p.mState) then p
  else Tetromino.unlock b { p with mLeft := p.mLeft - 1 } ticksNow

/-- ITetromino::moveRight (tetris.cpp lines 427-434). -/
def moveRight (b : Board) (ticksNow : Nat) (p : Tetromino) : Tetromino :=
  if Playfield.isFilled b (splitCells p.kind (p.mLeft + 1) p.mBottom p.mState) then p
  else Tetromino.unlock b { p with mLeft := p.mLeft + 1 } ticksNow

/-- The height lambda of ITetromino::softDrop (tetris.cpp lines 441-445):
landingSpot.at(0).row - cells.at(0).row. -/
def landingDist (b : Board) (p : Tetromino) : Int :=
  ((Playfield.getLandingSpot b p.split).headD noCell).row - ((p.split).headD noCell).row

/-- Embedding of ITetromino::softDrop (tetris.cpp lines 436-456), returning
the updated piece and the number of rows dropped. -/
def softDrop (b : Board) (ticksNow : Nat) (rows : Int) (p : Tetromino) : Tetromino × Int :=
  if p.mLocking then (p, 0)
  else if landingDist b p ≤ rows then
    (Tetromino.lock { p with mBottom := p.mBottom + landingDist b p } ticksNow, landingDist b p)
  else
    ({ p with mBottom := p.mBottom + rows }, rows)

structure HardDropResult where
  cleard : Nat
  dropped : Int
deriving DecidableEq

/-- Embedding of ITetromino::hardDrop (tetris.cpp lines 458-464): softDrop by
CELL_ROWS, then settle the resulting cells on the playfield; returns the
result record, the final piece and the updated board. -/
def hardDrop (b : Board) (ticksNow : Nat) (p : Tetromino) :
    HardDropResult × Tetromino × Board :=
  let pr := softDrop b ticksNow CELL_ROWS p
  let br := Playfield.onLanding b pr.1.split (colorOf pr.1.kind)
  ({ cleard := br.2, dropped := pr.2 }, pr.1, br.1)

/-! ## The lock-delay part of TetrominoController::update (lines 594-614)

While the active piece is locking, softDrop is a no-op, so on a
blocked-below piece an update tick only performs the forced-land check
Timer ticks - mLockTicks >= LOCK_DELAY_MILLISECONDS.  A trace of shift and
update events against a fixed board models the interaction the lock-delay
claim is about. -/

inductive PieceEv
  | evLeft (t : Nat)
  | evRight (t : Nat)
  | evUpd (t : Nat)
deriving DecidableEq

def evTime : PieceEv → Nat
  | PieceEv.evLeft t => t
  | PieceEv.evRight t => t
  | PieceEv.evUpd t => t

/-- One event against the live piece: a sideways move restamps the lock
timestamp via unlock; an update at time t reports a forced land exactly when
the piece is locking and t - mLockTicks has reached the lock delay. -/
def stepEv (b : Board) (p : Tetromino) : PieceEv → Tetromino × Bool
  | PieceEv.evLeft t => (moveLeft b t p, false)
  | PieceEv.evRight t => (moveRight b t p, false)
  | PieceEv.evUpd t => (p, p.mLocking && decide (LOCK_DELAY_MILLISECONDS ≤ t - p.mLockTicks))

/-- Whether some update in the event trace forces a land. -/
def runTrace (b : Board) : Tetromino → List PieceEv → Bool
  | _, [] => false
  | p, e :: es =>
    let r := stepEv b p e
    if r.2 then true else runTrace b r.1 es

/-- A shift event is successful when the target cells are not blocked. -/
def evOK (b : Board) (p : Tetromino) : PieceEv → Bool
  | PieceEv.evLeft _ => !Playfield.isFilled b (splitCells p.kind (p.mLeft - 1) p.mBottom p.mState)
  | PieceEv.evRight _ => !Playfield.isFilled b (splitCells p.kind (p.mLeft + 1) p.mBottom p.mState)
  | PieceEv.evUpd _ => true

/-- The lock-delay claim hypothesis along a trace: every event happens at or
after the current lock timestamp but strictly inside the 500 ms window, and
every shift in it is successful. -/
def goodTrace (b : Board) : Tetromino → List PieceEv → Bool
  | _, [] => true
  | p, e :: es =>
    decide (p.mLockTicks ≤ evTime e) &&
    decide (evTime e < p.mLockTicks + LOCK_DELAY_MILLISECONDS) &&
    evOK b p e && goodTrace b (stepEv b p e).1 es

/-! ## ScoreBoard (tetris.cpp lines 782-853) -/

structure ScoreBoard where
  mTicksPerRow : Int
  mCurrLevel : Int
  mCurrCleardRows : Int
  mTotalCleardRows : Int
  mScores : Int
deriving DecidableEq

/-- ScoreBoard::reset (tetris.cpp lines 782-789). -/
def ScoreBoard.reset : ScoreBoard :=
  { mTicksPerRow := 1000, mCurrLevel := 1, mCurrCleardRows := 0,
    mTotalCleardRows := 0, mScores := 0 }

/-- The static speeds table of ScoreBoard::tryLevelUp (lines 837-841). -/
def speeds : List Int :=
  [1000, 793, 618, 473, 355, 262, 190, 135, 94, 64, 43, 28, 18, 11, 7]

/-- The per-clear base scores of ScoreBoard::onClear (line 795). -/
def scoreTable : List Int := [100, 300, 500, 800]

/-- The body of one level-up (tetris.cpp lines 850-852). -/
def levelUpStep (s : ScoreBoard) : ScoreBoard :=
  { s with mTicksPerRow := speeds.getD s.mCurrLevel.toNat 0,
           mCurrCleardRows := s.mCurrCleardRows - s.mCurrLevel * 5,
           mCurrLevel := s.mCurrLevel + 1 }

/-- ScoreBoard::tryLevelUp (tetris.cpp lines 835-853): a single guarded
level-up, not a loop. -/
def ScoreBoard.tryLevelUp (s : ScoreBoard) : ScoreBoard :=
  if 15 ≤ s.mCurrLevel then s
  else if s.mCurrCleardRows < s.mCurrLevel * 5 then s
  else levelUpStep s

/-- ScoreBoard::onClear (tetris.cpp lines 791-801). -/
def ScoreBoard.onClear (s : ScoreBoard) (rows : Int) : ScoreBoard :=
  if 0 < rows then
    ScoreBoard.tryLevelUp
      { s with mScores := s.mScores + scoreTable.getD (rows - 1).toNat 0 * s.mCurrLevel,
               mTotalCleardRows := s.mTotalCleardRows + rows,
               mCurrCleardRows := s.mCurrCleardRows + rows }
  else s

/-- The level-up rule exactly as the specification words it, for the
refinement comparison against the code's single-step tryLevelUp: while
level < 15 and linesClearedThisLevel >= level * 5, subtract the threshold,
increment the level and reload the speed; 15 units of fuel dominate the
loop's 14 possible iterations. -/
def tryLevelUpWhile : Nat → ScoreBoard → ScoreBoard
  | 0, s => s
  | fuel + 1, s =>
    if s.mCurrLevel < 15 ∧ s.mCurrLevel * 5 ≤ s.mCurrCleardRows then
      tryLevelUpWhile fuel (levelUpStep s)
    else s

/-- onClear with the spec's while-loop level-up rule in place of the code's
single-step rule. -/
def ScoreBoard.onClearWhile (s : ScoreBoard) (rows : Int) : ScoreBoard :=
  if 0 < rows then
    tryLevelUpWhile 15
      { s with mScores := s.mScores + scoreTable.getD (rows - 1).toNat 0 * s.mCurrLevel,
               mTotalCleardRows := s.mTotalCleardRows + rows,
               mCurrCleardRows := s.mCurrCleardRows + rows }
  else s

/-- Any sequence of line-clear accounting steps from reset. -/
def runClears (ns : List Int) : ScoreBoard :=
  ns.foldl ScoreBoard.onClear ScoreBoard.reset

def runClearsWhile (ns : List Int) : ScoreBoard :=
  ns.foldl ScoreBoard.onClearWhile ScoreBoard.reset

/-- The ScoreBoard invariant maintained by onClear. -/
def SBInv (s : ScoreBoard) : Prop :=
  1 ≤ s.mCurrLevel ∧ s.mCurrLevel ≤ 15 ∧ 0 ≤ s.mCurrCleardRows ∧
    0 ≤ s.mTotalCleardRows ∧ 0 ≤ s.mScores ∧
    (s.mCurrLevel < 15 → s.mCurrCleardRows < s.mCurrLevel * 5)

/-! ## Timer (tetris.cpp lines 255-276 and 867-883)

SDL_GetTicks() is passed in as the explicit wallNow argument. -/

structure Timer where
  mPauseStart : Nat
  mPausedTicks : Nat
  mHasPaused : Bool
deriving DecidableEq

/-- Timer::getTicks (tetris.cpp line 265). -/
def Timer.getTicks (tm : Timer) (wallNow : Nat) : Nat :=
  (if tm.mHasPaused then tm.mPauseStart else wallNow) - tm.mPausedTicks

/-- Timer::pause (tetris.cpp lines 867-874). -/
def Timer.pause (tm : Timer) (wallNow : Nat) : Timer :=
  if tm.mHasPaused then tm
  else { tm with mHasPaused := true, mPauseStart := wallNow }

/-- Timer::resume (tetris.cpp lines 876-883). -/
def Timer.resume (tm : Timer) (wallNow : Nat) : Timer :=
  if tm.mHasPaused then
    { tm with mHasPaused := false,
              mPausedTicks := tm.mPausedTicks + (wallNow - tm.mPauseStart) }
  else tm

/-! ## Game state machine (GameStateManager, PauseState, BeforeExit)

Only the state identities matter for the transition claims, so states are
embedded by their GameState::ID and the manager by its current and one-level
previous id. -/

inductive SID
  | Playing
  | Paused
  | GameOver
  | BeforeExit
deriving DecidableEq

inductive Key
  | escape
  | retKey
  | other
deriving DecidableEq

structure GSM where
  mLast : Option SID
  mCurr : SID
deriving DecidableEq

/-- GameStateManager::changeState (tetris.cpp lines 1004-1011). -/
def changeState (m : GSM) (sid : SID) : GSM :=
  { mLast := some m.mCurr, mCurr := sid }

/-- GameStateManager::goBack (tetris.cpp lines 1013-1021): swap the current
and previous states when both exist. -/
def goBack (m : GSM) : GSM :=
  match m.mLast with
  | none => m
  | some l => { mLast := some m.mCurr, mCurr := l }

inductive ExitOutcome
  | stay (m : GSM)
  | terminated
deriving DecidableEq

/-- PauseState::handleEvent (tetris.cpp lines 915-921) restricted to key-down
events: SDLK_RETURN changes to the play state. -/
def pauseHandleKey (m : GSM) (k : Key) : GSM :=
  if k = Key.retKey then changeState m SID.Playing else m

/-- BeforeExit::handleEvent (tetris.cpp lines 969-982) restricted to key-down
events: SDLK_ESCAPE quits the process, SDLK_RETURN goes back. -/
def beforeExitHandleKey (m : GSM) (k : Key) : ExitOutcome :=
  match k with
  | Key.escape => ExitOutcome.terminated
  | Key.retKey => ExitOutcome.stay (goBack m)
  | Key.other => ExitOutcome.stay m

/-! ## Concrete fixtures used by counterexamples and witnesses -/

def filledBlock : Block := { color := 0, filled := true }

def cexBoard : Board :=
  List.replicate 5 emptyRow ++ [filledBlock :: List.replicate 9 emptyBlock] ++
    List.replicate 15 emptyRow ++ [List.replicate 9 filledBlock ++ [emptyBlock]]

def cexCells : List Cell := [⟨9, 18⟩, ⟨9, 19⟩, ⟨9, 20⟩, ⟨9, 21⟩]

/-- An O piece resting on the floor of the empty board, already locking. -/
def pieceOLock : Tetromino :=
  { kind := TKind.O, mLeft := 4, mBottom := 22, mState := TState.up,
    mLockTicks := 1000, mLocking := true }

/-- An O piece high above the floor of the empty board, free. -/
def pieceOFree : Tetromino :=
  { kind := TKind.O, mLeft := 4, mBottom := 2, mState := TState.up,
    mLockTicks := 0, mLocking := false }

/-! ## List helper lemmas for the onLanding proofs -/

lemma clearFullRows_eq (l : Board) :
    clearFullRows l = (l.filter (fun r => !isFullRow r), l.countP isFullRow) := by
  induction l with
  | nil => simp [clearFullRows]
  | cons r rest ih =>
    by_cases h : isFullRow r = true <;>
      simp [clearFullRows, ih, List.filter_cons, List.countP_cons, h]

lemma replicate_append_getD {α : Type} (a d : α) (l : List α) :
    ∀ k m, (List.replicate k a ++ l).getD (k + m) d = l.getD m d := by
  intro k
  induction k with
  | zero => intro m; simp
  | succ k ih =>
    intro m
    have : k + 1 + m = (k + m) + 1 := by omega
    simp only [List.replicate_succ, List.cons_append, this, List.getD_cons_succ]
    exact ih m

lemma filter_getD_of_mem {α : Type} (p : α → Bool) (d : α) :
    ∀ (l : List α) (i : Nat), i < l.length → p (l.getD i d) = true →
      (l.filter p).getD ((l.take i).countP p) d = l.getD i d := by
  intro l
  induction l with
  | nil => intro i hi; simp at hi
  | cons x xs ih =>
    intro i hi hp
    cases i with
    | zero =>
      simp only [List.getD_cons_zero] at hp ⊢
      simp [List.filter_cons, hp]
    | succ i =>
      simp only [List.getD_cons_succ] at hp ⊢
      simp only [List.take_succ_cons, List.countP_cons, List.filter_cons]
      by_cases hx : p x = true
      · simp only [hx, if_true, List.getD_cons_succ]
        exact ih i (by simpa using hi) hp
      · simp only [hx, Bool.false_eq_true, if_false, Nat.add_zero]
        exact ih i (by simpa using hi) hp

lemma countP_not_add_countP {α : Type} (p : α → Bool) (l : List α) :
    l.countP (fun a => !p a) + l.countP p = l.length := by
  induction l with
  | nil => simp
  | cons x xs ih =>
    by_cases h : p x = true <;> simp [List.countP_cons, h] <;> omega

lemma length_filter_eq_countP {α : Type} (p : α → Bool) (l : List α) :
    (l.filter p).length = l.countP p := by
  induction l with
  | nil => simp
  | cons x xs ih =>
    by_cases h : p x = true <;> simp [List.filter_cons, List.countP_cons, h, ih]

lemma countP_le_len {α : Type} (p : α → Bool) (l : List α) : l.countP p ≤ l.length := by
  induction l with
  | nil => simp
  | cons x xs ih =>
    by_cases h : p x = true <;> simp [List.countP_cons, h] <;> omega

lemma countP_take_drop (q : Row → Bool) (l : Board) (i : Nat) (hi : i < l.length) :
    l.countP q =
      (l.take i).countP q + (if q (l.getD i []) then 1 else 0) +
        (l.drop (i + 1)).countP q := by
  induction l generalizing i with
  | nil => simp at hi
  | cons x xs ih =>
    cases i with
    | zero => simp [List.countP_cons]; omega
    | succ i =>
      have hi' : i < xs.length := by simpa using hi
      simp only [List.take_succ_cons, List.drop_succ_cons, List.getD_cons_succ,
        List.countP_cons]
      have := ih i hi'
      omega

lemma getD_set_eq_ite {α : Type} :
    ∀ (l : List α) (n m : Nat) (a d : α),
      (l.set n a).getD m d = if n = m ∧ n < l.length then a else l.getD m d := by
  intro l
  induction l with
  | nil => intro n m a d; simp
  | cons x xs ih =>
    intro n m a d
    cases n with
    | zero =>
      cases m with
      | zero => simp
      | succ m => simp
    | succ n =>
      cases m with
      | zero => simp
      | succ m =>
        have hiff : (n + 1 = m + 1 ∧ n + 1 < xs.length + 1) ↔ (n = m ∧ n < xs.length) := by
          omega
        simp only [List.set_cons_succ, List.getD_cons_succ, List.length_cons, ih, hiff]

lemma markCell_length (b : Board) (c : Cell) (color : Nat) :
    (Playfield.markCell b c color).length = b.length := by
  simp [Playfield.markCell]

lemma markCells_length (color : Nat) :
    ∀ (cells : List Cell) (b : Board),
      (Playfield.markCells b cells color).length = b.length := by
  intro cells
  induction cells with
  | nil => intro b; simp [Playfield.markCells]
  | cons c rest ih =>
    intro b
    show (Playfield.markCells (Playfield.markCell b c color) rest color).length = b.length
    rw [ih, markCell_length]

lemma markCell_rows_length (b : Board) (c : Cell) (color : Nat) (n : Nat)
    (hrows : ∀ r ∈ b, r.length = n) (hrow : c.row.toNat < b.length) :
    ∀ r ∈ Playfield.markCell b c color, r.length = n := by
  intro r hr
  rcases List.mem_or_eq_of_mem_set hr with h | h
  · exact hrows r h
  · subst h
    rw [List.length_set]
    have : b.getD c.row.toNat [] = b[c.row.toNat] := List.getD_eq_getElem b [] hrow
    rw [this]
    exact hrows _ (List.getElem_mem hrow)

lemma markCell_filled_mono (b : Board) (c : Cell) (color : Nat) (r k : Nat)
    (h : ((b.getD r []).getD k emptyBlock).filled = true) :
    (((Playfield.markCell b c color).getD r []).getD k emptyBlock).filled = true := by
  unfold Playfield.markCell
  rw [getD_set_eq_ite]
  split
  · rename_i hcond
    rw [getD_set_eq_ite]
    split
    · rfl
    · rw [hcond.1]
      exact h
  · exact h

lemma markCell_filled_self (b : Board) (c : Cell) (color : Nat)
    (hr : c.row.toNat < b.length) (hc : c.column.toNat < (b.getD c.row.toNat []).length) :
    (((Playfield.markCell b c color).getD c.row.toNat []).getD c.column.toNat
      emptyBlock).filled = true := by
  unfold Playfield.markCell
  rw [getD_set_eq_ite, if_pos ⟨rfl, hr⟩, getD_set_eq_ite,
    if_pos ⟨rfl, by simpa using hc⟩]

lemma markCells_filled_mono (color : Nat) :
    ∀ (cells : List Cell) (b : Board) (r k : Nat),
      ((b.getD r []).getD k emptyBlock).filled = true →
      (((Playfield.markCells b cells color).getD r []).getD k emptyBlock).filled = true := by
  intro cells
  induction cells with
  | nil => intro b r k h; exact h
  | cons c rest ih =>
    intro b r k h
    exact ih (Playfield.markCell b c color) r k (markCell_filled_mono b c color r k h)

lemma markCells_filled (color : Nat) :
    ∀ (cells : List Cell) (b : Board), b.length = 22 → (∀ r ∈ b, r.length = 10) →
      (∀ c ∈ cells, 0 ≤ c.column ∧ c.column < 10 ∧ 0 ≤ c.row ∧ c.row < 22) →
      ∀ c ∈ cells,
        (((Playfield.markCells b cells color).getD c.row.toNat []).getD c.column.toNat
          emptyBlock).filled = true := by
  intro cells
  induction cells with
  | nil => intro b _ _ _ c hc; simp at hc
  | cons c0 rest ih =>
    intro b hb hrows hbound c hc
    have hb0 : c0.row.toNat < b.length := by
      have := hbound c0 (by simp)
      omega
    rcases List.mem_cons.mp hc with h | h
    · subst h
      show (((Playfield.markCells (Playfield.markCell b c color) rest color).getD
        c.row.toNat []).getD c.column.toNat emptyBlock).filled = true
      apply markCells_filled_mono
      apply markCell_filled_self
      · have := hbound c (by simp)
        omega
      · have hmem : b.getD c.row.toNat [] = b[c.row.toNat] :=
          List.getD_eq_getElem b [] (by omega)
        rw [hmem, hrows _ (List.getElem_mem (by omega))]
        have := hbound c (by simp)
        omega
    · show (((Playfield.markCells (Playfield.markCell b c0 color) rest color).getD
        c.row.toNat []).getD c.column.toNat emptyBlock).filled = true
      apply ih (Playfield.markCell b c0 color)
      · rw [markCell_length]; exact hb
      · exact markCell_rows_length b c0 color 10 hrows hb0
      · intro x hx; exact hbound x (by simp [hx])
      · exact h

lemma onLanding_shift_below (M : Board) (i : Nat) (hi : i < M.length)
    (hnf : isFullRow (M.getD i []) = false) :
    (List.replicate (M.countP isFullRow) emptyRow ++
      M.filter (fun r => !isFullRow r)).getD
        (i + (M.drop (i + 1)).countP isFullRow) [] = M.getD i [] := by
  have hsplit := countP_take_drop isFullRow M i hi
  rw [hnf] at hsplit
  simp only [Bool.false_eq_true, if_false, Nat.add_zero] at hsplit
  have hfa_le : (M.take i).countP isFullRow ≤ i := by
    have h1 : (M.take i).countP isFullRow ≤ (M.take i).length := countP_le_len _ _
    have h2 : (M.take i).length = i := by
      rw [List.length_take]
      omega
    omega
  have hidx : i + (M.drop (i + 1)).countP isFullRow =
      M.countP isFullRow + (i - (M.take i).countP isFullRow) := by
    omega
  rw [hidx, replicate_append_getD]
  have hp : (fun r => !isFullRow r) (M.getD i []) = true := by
    show (!isFullRow (M.getD i [])) = true
    rw [hnf]
    rfl
  have hmain := filter_getD_of_mem (fun r => !isFullRow r) [] M i hi hp
  have hcnt : (M.take i).countP (fun r => !isFullRow r) =
      i - (M.take i).countP isFullRow := by
    have h1 := countP_not_add_countP isFullRow (M.take i)
    have h2 : (M.take i).length = i := by
      rw [List.length_take]
      omega
    omega
  rw [hcnt] at hmain
  exact hmain

/-! ## Claim C2 -/

/-- Claim C2, counterexample to the claim as stated: settling a vertical
4-cell piece in column 9 of a 22-row board whose bottom row was full except
column 9 clears exactly the bottom row.  The surviving row at index 5 (which
has 0 cleared rows above it, so the claim as stated predicts it stays at
index 5) actually moves down to index 6: the row found at its predicted
position differs from it.  Surviving rows shift by the number of cleared rows
BELOW them, not above. -/
theorem onLanding_shift_cex :
    isFullRow ((Playfield.markCells cexBoard cexCells 0).getD 5 []) = false ∧
    (Playfield.onLanding cexBoard cexCells 0).1.getD
        (5 + ((Playfield.markCells cexBoard cexCells 0).take 5).countP isFullRow) [] ≠
      (Playfield.markCells cexBoard cexCells 0).getD 5 [] := by
  decide

/-- Claim C2, amended (shift direction corrected from "above" to "below"):
for a 22-row board and an in-bounds 4-cell set, onLanding marks the cells
filled, removes every full row scanning top to bottom, prepends exactly that
many fresh empty rows, returns the number of removed rows, keeps the row
count at 22, and each surviving row shifts down by the number of cleared
rows below it. -/
theorem onLanding_spec (b : Board) (cells : List Cell) (color : Nat)
    (hb : b.length = 22) (hrows : ∀ r ∈ b, r.length = 10)
    (hlen : cells.length = 4)
    (hbound : ∀ c ∈ cells, 0 ≤ c.column ∧ c.column < 10 ∧ 0 ≤ c.row ∧ c.row < 22) :
    (Playfield.onLanding b cells color).2 =
      (Playfield.markCells b cells color).countP isFullRow ∧
    (Playfield.onLanding b cells color).1 =
      List.replicate ((Playfield.markCells b cells color).countP isFullRow) emptyRow ++
        (Playfield.markCells b cells color).filter (fun r => !isFullRow r) ∧
    (Playfield.onLanding b cells color).1.length = 22 ∧
    (∀ c ∈ cells,
      Playfield.isFilledAt (Playfield.markCells b cells color) c.column c.row = true) ∧
    (∀ i : Nat, i < 22 →
      isFullRow ((Playfield.markCells b cells color).getD i []) = false →
      (Playfield.onLanding b cells color).1.getD
          (i + ((Playfield.markCells b cells color).drop (i + 1)).countP isFullRow) [] =
        (Playfield.markCells b cells color).getD i []) := by
  have hM : (Playfield.markCells b cells color).length = 22 := by
    rw [markCells_length]; exact hb
  refine ⟨?_, ?_, ?_, ?_, ?_⟩
  · simp [Playfield.onLanding, clearFullRows_eq]
  · simp [Playfield.onLanding, clearFullRows_eq]
  · simp only [Playfield.onLanding, clearFullRows_eq, List.length_append,
      List.length_replicate, length_filter_eq_countP]
    have h1 := countP_not_add_countP isFullRow (Playfield.markCells b cells color)
    have h2 : (Playfield.markCells b cells color).countP isFullRow ≤ 22 := by
      have := countP_le_len isFullRow (Playfield.markCells b cells color)
      omega
    omega
  · intro c hc
    have hfilled := markCells_filled color cells b hb hrows hbound c hc
    simp only [Playfield.isFilledAt, Bool.or_eq_true, decide_eq_true_eq]
    tauto
  · intro i hi hnf
    simp only [Playfield.onLanding, clearFullRows_eq]
    exact onLanding_shift_below (Playfield.markCells b cells color) i (by omega) hnf

/-- Claim C2, witness: the amended theorem applied to a concrete landing of a
horizontal 4-cell set on the bottom row of the empty board. -/
theorem onLanding_spec_witness :
    (Playfield.onLanding emptyBoard22 [⟨0, 21⟩, ⟨1, 21⟩, ⟨2, 21⟩, ⟨3, 21⟩] 7).1.length = 22 ∧
    (Playfield.onLanding emptyBoard22 [⟨0, 21⟩, ⟨1, 21⟩, ⟨2, 21⟩, ⟨3, 21⟩] 7).2 =
      (Playfield.markCells emptyBoard22 [⟨0, 21⟩, ⟨1, 21⟩, ⟨2, 21⟩, ⟨3, 21⟩] 7).countP
        isFullRow := by
  have h := onLanding_spec emptyBoard22 [⟨0, 21⟩, ⟨1, 21⟩, ⟨2, 21⟩, ⟨3, 21⟩] 7
    (by decide) (by decide) (by decide) (by decide)
  exact ⟨h.2.2.1, h.1⟩

/-! ## Claim C1 -/

/-- Claim C1, counterexample to the claim as stated: on the empty board the
cell (column 0, row -1) is reported filled by the collision query although
its column is in range, its row is not ≥ 22, and the underlying stored cell
is not filled — so the query is true solely because the row is negative,
which the claim says never happens. -/
theorem isFilled_negative_row_cex :
    Playfield.isFilledAt emptyBoard22 0 (-1) = true ∧
    ¬((0 : Int) < 0 ∨ (10 : Int) ≤ 0 ∨ (22 : Int) ≤ -1 ∨
      ((emptyBoard22.getD (Int.toNat (-1)) []).getD (Int.toNat 0) emptyBlock).filled = true) := by
  decide

/-- Claim C1, amended: the collision query on a cell set is true exactly when
some cell has column < 0, column ≥ 10, row ≥ 22, row < 0 (negative rows ARE
blocking, contrary to the original claim), or overlaps a filled board cell. -/
theorem isFilled_blocked_iff (b : Board) (cells : List Cell) :
    Playfield.isFilled b cells = true ↔
      ∃ c ∈ cells, (c.column < 0 ∨ CELL_COLUMNS ≤ c.column ∨ CELL_ROWS ≤ c.row ∨
        c.row < 0 ∨ ((b.getD c.row.toNat []).getD c.column.toNat emptyBlock).filled = true) := by
  simp only [Playfield.isFilled, Playfield.isFilledAt, List.any_eq_true, Bool.or_eq_true,
    decide_eq_true_eq]
  constructor
  · rintro ⟨c, hc, h⟩
    exact ⟨c, hc, by tauto⟩
  · rintro ⟨c, hc, h⟩
    exact ⟨c, hc, by tauto⟩

/-! ## Claim C10 -/

lemma getLandingSpotFuel_isSome (b : Board) :
    ∀ (n : Nat) (cells : List Cell), ∀ c ∈ cells,
      (CELL_ROWS - c.row).toNat < n → (getLandingSpotFuel b n cells).isSome = true := by
  intro n
  induction n with
  | zero => intro cells c _ hn; omega
  | succ n ih =>
    intro cells c hc hn
    by_cases hblocked : blockedBelow b cells = true
    · simp [getLandingSpotFuel, hblocked]
    · have hstep : getLandingSpotFuel b (n + 1) cells =
          getLandingSpotFuel b n (descendCells cells) := by
        simp [getLandingSpotFuel, hblocked]
      rw [hstep]
      have hcfree : Playfield.isFilledAt b c.column (c.row + 1) = false := by
        by_contra hcontra
        apply hblocked
        simp only [blockedBelow, List.any_eq_true]
        exact ⟨c, hc, by revert hcontra; cases Playfield.isFilledAt b c.column (c.row + 1) <;> simp⟩
      have hbound : c.row + 1 < CELL_ROWS := by
        by_contra hge
        push_neg at hge
        have htrue : Playfield.isFilledAt b c.column (c.row + 1) = true := by
          simp [Playfield.isFilledAt, hge]
        rw [htrue] at hcfree
        exact Bool.noConfusion hcfree
      apply ih (descendCells cells) { c with row := c.row + 1 }
      · exact List.mem_map_of_mem _ hc
      · show (CELL_ROWS - (c.row + 1)).toNat < n
        unfold CELL_ROWS at hbound hn ⊢
        omega

/-- Claim C10: the descent loop of Playfield::getLandingSpot terminates on
every 4-cell input within the fuel bound landingFuel (driven by the first
cell's row), because an un-blocked step pushes every row one closer to the
row-22 floor at which the collision query is always true. -/
theorem getLandingSpot_terminates (b : Board) (cells : List Cell)
    (h : cells.length = 4) :
    getLandingSpotFuel b (landingFuel cells) cells =
      some (Playfield.getLandingSpot b cells) := by
  have hhead : cells.headD noCell ∈ cells := by
    cases cells with
    | nil => simp at h
    | cons x xs => simp
  have hsome := getLandingSpotFuel_isSome b (landingFuel cells) cells
    (cells.headD noCell) hhead (by unfold landingFuel; omega)
  rcases Option.isSome_iff_exists.mp hsome with ⟨v, hv⟩
  rw [hv]
  simp [Playfield.getLandingSpot, hv]

/-- Claim C10, witness: the bound evaluated on a concrete 4-cell row at the
top of the empty board. -/
theorem getLandingSpot_terminates_witness :
    getLandingSpotFuel emptyBoard22 (landingFuel [⟨0, 0⟩, ⟨1, 0⟩, ⟨2, 0⟩, ⟨3, 0⟩])
        [⟨0, 0⟩, ⟨1, 0⟩, ⟨2, 0⟩, ⟨3, 0⟩] =
      some (Playfield.getLandingSpot emptyBoard22 [⟨0, 0⟩, ⟨1, 0⟩, ⟨2, 0⟩, ⟨3, 0⟩]) :=
  getLandingSpot_terminates emptyBoard22 [⟨0, 0⟩, ⟨1, 0⟩, ⟨2, 0⟩, ⟨3, 0⟩] (by decide)

/-! ## Claim C4 -/

/-- Claim C4: softDrop is a no-op returning 0 on a Locking piece; otherwise,
with d the landing distance from the board's landing spot, it moves the full
d and locks when d fits in the budget, and moves exactly the budget staying
free otherwise. -/
theorem softDrop_spec (b : Board) (t : Nat) (p : Tetromino) (rows : Int)
    (hrows : 0 ≤ rows) :
    (p.mLocking = true → softDrop b t rows p = (p, 0)) ∧
    (p.mLocking = false → landingDist b p ≤ rows →
      softDrop b t rows p =
        ({ p with mBottom := p.mBottom + landingDist b p,
                  mLocking := true, mLockTicks := t }, landingDist b p)) ∧
    (p.mLocking = false → rows < landingDist b p →
      softDrop b t rows p = ({ p with mBottom := p.mBottom + rows }, rows)) := by
  refine ⟨?_, ?_, ?_⟩
  · intro hp
    simp [softDrop, hp]
  · intro hp hle
    simp [softDrop, hp, hle, Tetromino.lock]
  · intro hp hlt
    simp [softDrop, hp, not_le.mpr hlt]

/-- Claim C4, witness: a free O piece near the top of the empty board with a
budget of 1 row moves exactly 1 row and stays free. -/
theorem softDrop_spec_witness :
    softDrop emptyBoard22 777 1 pieceOFree =
      ({ pieceOFree with mBottom := pieceOFree.mBottom + 1 }, 1) :=
  (softDrop_spec emptyBoard22 777 pieceOFree 1 (by decide)).2.2 rfl (by decide)

/-! ## Claim C8 -/

/-- Claim C8: hardDrop on a Locking piece reports 0 rows dropped, leaves the
piece where it is, settles its cells at the current position, and returns
the clear count of that settle. -/
theorem hardDrop_locking_spec (b : Board) (t : Nat) (p : Tetromino)
    (hp : p.mLocking = true) :
    (hardDrop b t p).1.dropped = 0 ∧
    (hardDrop b t p).2.1 = p ∧
    (hardDrop b t p).2.2 = (Playfield.onLanding b p.split (colorOf p.kind)).1 ∧
    (hardDrop b t p).1.cleard = (Playfield.onLanding b p.split (colorOf p.kind)).2 := by
  refine ⟨?_, ?_, ?_, ?_⟩ <;> simp [hardDrop, softDrop, hp]

/-- Claim C8, witness: a locking O piece on the floor of the empty board. -/
theorem hardDrop_locking_spec_witness :
    (hardDrop emptyBoard22 1600 pieceOLock).1.dropped = 0 ∧
    (hardDrop emptyBoard22 1600 pieceOLock).2.1 = pieceOLock := by
  have h := hardDrop_locking_spec emptyBoard22 1600 pieceOLock rfl
  exact ⟨h.1, h.2.1⟩

/-! ## Claim C3 -/

/-- Claim C3: along any event trace in which every shift succeeds and every
event (shift or update) happens inside the 500 ms window after the current
lock timestamp, no update ever forces a land; and once a locking piece has
seen no successful move for the full delay, the very next update forces the
land. -/
theorem lockDelay_spec :
    (∀ (b : Board) (p : Tetromino) (es : List PieceEv), p.mLocking = true →
      goodTrace b p es = true → runTrace b p es = false) ∧
    (∀ (b : Board) (p : Tetromino) (t : Nat), p.mLocking = true →
      p.mLockTicks + LOCK_DELAY_MILLISECONDS ≤ t →
      (stepEv b p (PieceEv.evUpd t)).2 = true) := by
  constructor
  · intro b p es hlock hgood
    clear hlock
    induction es generalizing p with
    | nil => rfl
    | cons e rest ih =>
      simp only [goodTrace, Bool.and_eq_true, decide_eq_true_eq] at hgood
      obtain ⟨⟨⟨h1, h2⟩, h3⟩, h4⟩ := hgood
      cases e with
      | evLeft t =>
        have hrw : runTrace b p (PieceEv.evLeft t :: rest) =
            runTrace b (moveLeft b t p) rest := by
          simp [runTrace, stepEv]
        rw [hrw]
        exact ih _ h4
      | evRight t =>
        have hrw : runTrace b p (PieceEv.evRight t :: rest) =
            runTrace b (moveRight b t p) rest := by
          simp [runTrace, stepEv]
        rw [hrw]
        exact ih _ h4
      | evUpd t =>
        simp only [evTime] at h1 h2
        have hno : ¬ (LOCK_DELAY_MILLISECONDS ≤ t - p.mLockTicks) := by
          unfold LOCK_DELAY_MILLISECONDS at h2 ⊢
          omega
        have hrw : runTrace b p (PieceEv.evUpd t :: rest) = runTrace b p rest := by
          simp [runTrace, stepEv, hno]
        rw [hrw]
        exact ih _ h4
  · intro b p t hp hle
    simp only [stepEv, hp, Bool.true_and, decide_eq_true_eq]
    omega

/-- Claim C3, witness: a locking O piece on the floor of the empty board,
shifted left and right inside the window with interleaved updates, never
force-lands; and an update 500 ms after its last lock timestamp does. -/
theorem lockDelay_spec_witness :
    runTrace emptyBoard22 pieceOLock
        [PieceEv.evLeft 1100, PieceEv.evUpd 1200, PieceEv.evRight 1500,
          PieceEv.evUpd 1900] = false ∧
    (stepEv emptyBoard22 pieceOLock (PieceEv.evUpd 1500)).2 = true := by
  constructor
  · exact lockDelay_spec.1 emptyBoard22 pieceOLock
      [PieceEv.evLeft 1100, PieceEv.evUpd 1200, PieceEv.evRight 1500,
        PieceEv.evUpd 1900] rfl (by decide)
  · exact lockDelay_spec.2 emptyBoard22 pieceOLock 1500 rfl (by decide)

/-! ## Claims C5 and C9: ScoreBoard -/

lemma scoreTable_getD_nonneg : ∀ k : Nat, 0 ≤ scoreTable.getD k 0 := by
  intro k
  match k with
  | 0 => decide
  | 1 => decide
  | 2 => decide
  | 3 => decide
  | n + 4 =>
    show 0 ≤ scoreTable.getD (n + 4) 0
    have hlen4 : scoreTable.length ≤ n + 4 := by simp [scoreTable]
    rw [List.getD_eq_default _ _ hlen4]

lemma tryLevelUpWhile_stop (s : ScoreBoard) (f : Nat)
    (h : ¬(s.mCurrLevel < 15 ∧ s.mCurrLevel * 5 ≤ s.mCurrCleardRows)) :
    tryLevelUpWhile f s = s := by
  cases f <;> simp [tryLevelUpWhile, h]

lemma onClear_step (s : ScoreBoard) (n : Int) (hInv : SBInv s)
    (h0 : 0 ≤ n) (h4 : n ≤ 4) :
    ScoreBoard.onClear s n = ScoreBoard.onClearWhile s n ∧
      SBInv (ScoreBoard.onClear s n) := by
  obtain ⟨hl1, hl15, hcr, htot, hsc, hlt⟩ := hInv
  by_cases hn : 0 < n
  case neg =>
    have he1 : ScoreBoard.onClear s n = s := by simp [ScoreBoard.onClear, hn]
    have he2 : ScoreBoard.onClearWhile s n = s := by simp [ScoreBoard.onClearWhile, hn]
    rw [he1, he2]
    exact ⟨rfl, hl1, hl15, hcr, htot, hsc, hlt⟩
  case pos =>
    have hscore : 0 ≤ scoreTable.getD (n - 1).toNat 0 * s.mCurrLevel :=
      mul_nonneg (scoreTable_getD_nonneg _) (by omega)
    simp only [ScoreBoard.onClear, ScoreBoard.onClearWhile, if_pos hn]
    set s1 : ScoreBoard :=
      { s with mScores := s.mScores + scoreTable.getD (n - 1).toNat 0 * s.mCurrLevel,
               mTotalCleardRows := s.mTotalCleardRows + n,
               mCurrCleardRows := s.mCurrCleardRows + n } with hs1
    have hs1level : s1.mCurrLevel = s.mCurrLevel := rfl
    have hs1cr : s1.mCurrCleardRows = s.mCurrCleardRows + n := rfl
    by_cases hL : 15 ≤ s.mCurrLevel
    · have hguard : ¬(s1.mCurrLevel < 15 ∧ s1.mCurrLevel * 5 ≤ s1.mCurrCleardRows) := by
        rw [hs1level]
        omega
      rw [ScoreBoard.tryLevelUp, if_pos (by rw [hs1level]; omega),
        tryLevelUpWhile_stop s1 15 hguard]
      exact ⟨rfl, by rw [hs1level]; omega, by rw [hs1level]; omega,
        by rw [hs1cr]; omega, by show 0 ≤ s.mTotalCleardRows + n; omega,
        by show 0 ≤ s.mScores + scoreTable.getD (n - 1).toNat 0 * s.mCurrLevel; omega,
        by rw [hs1level, hs1cr]; omega⟩
    · push_neg at hL
      have hlt' : s.mCurrCleardRows < s.mCurrLevel * 5 := hlt hL
      by_cases hC : s.mCurrCleardRows + n < s.mCurrLevel * 5
      · have hguard : ¬(s1.mCurrLevel < 15 ∧ s1.mCurrLevel * 5 ≤ s1.mCurrCleardRows) := by
          rw [hs1level, hs1cr]
          omega
        rw [ScoreBoard.tryLevelUp, if_neg (by rw [hs1level]; omega),
          if_pos (by rw [hs1level, hs1cr]; exact hC),
          tryLevelUpWhile_stop s1 15 hguard]
        exact ⟨rfl, by rw [hs1level]; omega, by rw [hs1level]; omega,
          by rw [hs1cr]; omega, by show 0 ≤ s.mTotalCleardRows + n; omega,
          by show 0 ≤ s.mScores + scoreTable.getD (n - 1).toNat 0 * s.mCurrLevel; omega,
          by rw [hs1level, hs1cr]; omega⟩
      · push_neg at hC
        have hguard : s1.mCurrLevel < 15 ∧ s1.mCurrLevel * 5 ≤ s1.mCurrCleardRows := by
          rw [hs1level, hs1cr]
          exact ⟨hL, hC⟩
        have hstep1 : tryLevelUpWhile 15 s1 = tryLevelUpWhile 14 (levelUpStep s1) := by
          rw [show (15 : Nat) = 14 + 1 from rfl, tryLevelUpWhile, if_pos hguard]
        have hsteplevel : (levelUpStep s1).mCurrLevel = s.mCurrLevel + 1 := rfl
        have hstepcr : (levelUpStep s1).mCurrCleardRows =
            s.mCurrCleardRows + n - s.mCurrLevel * 5 := rfl
        have hguard2 : ¬((levelUpStep s1).mCurrLevel < 15 ∧
            (levelUpStep s1).mCurrLevel * 5 ≤ (levelUpStep s1).mCurrCleardRows) := by
          rw [hsteplevel, hstepcr]
          rintro ⟨-, habs⟩
          nlinarith
        rw [ScoreBoard.tryLevelUp, if_neg (by rw [hs1level]; omega),
          if_neg (by rw [hs1level, hs1cr]; omega), hstep1,
          tryLevelUpWhile_stop _ 14 hguard2]
        refine ⟨rfl, by rw [hsteplevel]; omega, by rw [hsteplevel]; omega,
          by rw [hstepcr]; omega,
          by show 0 ≤ s.mTotalCleardRows + n; omega,
          by show 0 ≤ s.mScores + scoreTable.getD (n - 1).toNat 0 * s.mCurrLevel; omega,
          ?_⟩
        rw [hsteplevel, hstepcr]
        intro hlt2
        nlinarith

lemma resetSBInv : SBInv ScoreBoard.reset := by
  unfold SBInv ScoreBoard.reset
  norm_num

lemma runClears_aux : ∀ (ns : List Int) (s : ScoreBoard), SBInv s →
    (∀ n ∈ ns, 0 ≤ n ∧ n ≤ 4) →
    ns.foldl ScoreBoard.onClear s = ns.foldl ScoreBoard.onClearWhile s ∧
      SBInv (ns.foldl ScoreBoard.onClear s) := by
  intro ns
  induction ns with
  | nil => intro s h _; exact ⟨rfl, h⟩
  | cons n rest ih =>
    intro s hInv hall
    have hstep := onClear_step s n hInv (hall n (by simp)).1 (hall n (by simp)).2
    have hrest := ih (ScoreBoard.onClear s n) hstep.2
      (fun x hx => hall x (List.mem_cons_of_mem n hx))
    refine ⟨?_, by simpa using hrest.1.symm ▸ hrest.2⟩
    simp only [List.foldl_cons]
    rw [← hstep.1]
    exact hrest.1

/-- Claim C5: after every line-clear accounting step from reset, the code's
single-step tryLevelUp behaves exactly as the spec's while-loop level-up rule
(they produce identical ScoreBoard states along every valid clear sequence),
and the speed table is the fixed 15-entry strictly decreasing table starting
at 1000 ms/row. -/
theorem levelup_while_spec :
    (∀ ns : List Int, (∀ n ∈ ns, 0 ≤ n ∧ n ≤ 4) → runClears ns = runClearsWhile ns) ∧
    speeds.length = 15 ∧ speeds.headD 0 = 1000 ∧
    List.Chain' (fun a b => b < a) speeds := by
  refine ⟨?_, by decide, by decide, by norm_num [speeds, List.chain'_cons]⟩
  intro ns h
  exact (runClears_aux ns ScoreBoard.reset resetSBInv h).1

/-- Claim C5, witness: a concrete clear sequence evaluated through both the
code's rule and the spec's while rule. -/
theorem levelup_while_spec_witness : runClears [4, 4, 4] = runClearsWhile [4, 4, 4] :=
  levelup_while_spec.1 [4, 4, 4] (by decide)

/-- Claim C9: from reset, any sequence of onClear(n) calls with 0 <= n <= 4
keeps the level in [1, 15], the score and both line counters non-negative,
and, whenever the level is below 15, the per-level cleared-rows counter
strictly below level * 5. -/
theorem scoreboard_invariant (ns : List Int) (h : ∀ n ∈ ns, 0 ≤ n ∧ n ≤ 4) :
    1 ≤ (runClears ns).mCurrLevel ∧ (runClears ns).mCurrLevel ≤ 15 ∧
    0 ≤ (runClears ns).mScores ∧ 0 ≤ (runClears ns).mTotalCleardRows ∧
    0 ≤ (runClears ns).mCurrCleardRows ∧
    ((runClears ns).mCurrLevel < 15 →
      (runClears ns).mCurrCleardRows < (runClears ns).mCurrLevel * 5) := by
  have hInv : SBInv (runClears ns) := by
    rw [runClears]
    exact (runClears_aux ns ScoreBoard.reset resetSBInv h).2
  obtain ⟨a, b, c, d, e, f⟩ := hInv
  exact ⟨a, b, e, d, c, f⟩

/-- Claim C9, witness: the invariant evaluated after three tetris clears. -/
theorem scoreboard_invariant_witness :
    1 ≤ (runClears [4, 4, 4]).mCurrLevel ∧ (runClears [4, 4, 4]).mCurrLevel ≤ 15 ∧
    0 ≤ (runClears [4, 4, 4]).mScores := by
  have h := scoreboard_invariant [4, 4, 4] (by decide)
  exact ⟨h.1, h.2.1, h.2.2.1⟩

/-! ## Claim C7: Timer -/

/-- Claim C7: while paused the logical clock is frozen at the pause instant
independently of wall time; resume adds the pause duration to the pause
offset so elapsed-time differences across a pause exclude the paused
interval; pause while paused and resume while running are no-ops. -/
theorem timer_pause_resume_spec :
    (∀ (tm : Timer) (w w' : Nat), tm.mHasPaused = true →
      tm.getTicks w = tm.getTicks w') ∧
    (∀ (tm : Timer) (w0 w : Nat), tm.mHasPaused = false →
      (tm.pause w0).getTicks w = tm.getTicks w0) ∧
    (∀ (tm : Timer) (w0 w1 : Nat), tm.mHasPaused = false →
      ((tm.pause w0).resume w1).mPausedTicks = tm.mPausedTicks + (w1 - w0)) ∧
    (∀ (tm : Timer) (w0 w1 wa wb : Nat), tm.mHasPaused = false →
      tm.mPausedTicks ≤ wa → wa ≤ w0 → w0 ≤ w1 → w1 ≤ wb →
      ((tm.pause w0).resume w1).getTicks wb - tm.getTicks wa =
        (wb - wa) - (w1 - w0)) ∧
    (∀ (tm : Timer) (w : Nat), tm.mHasPaused = true → tm.pause w = tm) ∧
    (∀ (tm : Timer) (w : Nat), tm.mHasPaused = false → tm.resume w = tm) := by
  refine ⟨?_, ?_, ?_, ?_, ?_, ?_⟩
  · intro tm w w' h
    simp [Timer.getTicks, h]
  · intro tm w0 w h
    simp [Timer.getTicks, Timer.pause, h]
  · intro tm w0 w1 h
    simp [Timer.pause, Timer.resume, h]
  · intro tm w0 w1 wa wb h h1 h2 h3 h4
    simp only [Timer.pause, Timer.resume, Timer.getTicks, h, Bool.false_eq_true,
      if_false, if_true]
    omega
  · intro tm w h
    simp [Timer.pause, h]
  · intro tm w h
    simp [Timer.resume, h]

/-- Claim C7, witness: the pause/resume behavior evaluated on a concrete
timer paused at wall time 100 and resumed at 300. -/
theorem timer_pause_resume_spec_witness :
    Timer.getTicks (Timer.pause ⟨0, 0, false⟩ 100) 500 =
      Timer.getTicks ⟨0, 0, false⟩ 100 ∧
    (Timer.resume (Timer.pause ⟨0, 0, false⟩ 100) 300).mPausedTicks = 0 + (300 - 100) := by
  constructor
  · exact timer_pause_resume_spec.2.1 ⟨0, 0, false⟩ 100 500 rfl
  · exact timer_pause_resume_spec.2.2.1 ⟨0, 0, false⟩ 100 300 rfl

/-! ## Claim C6: ConfirmExit transitions -/

/-- Claim C6, counterexample to the claim as stated: the confirm input is
Return (it is what sends Paused to Playing), but in the BeforeExit state
Return does not terminate the process (it goes back); Escape is what
terminates, so the claim has confirm and cancel swapped. -/
theorem beforeExit_confirm_cex :
    (pauseHandleKey { mLast := some SID.Playing, mCurr := SID.Paused } Key.retKey).mCurr =
      SID.Playing ∧
    beforeExitHandleKey { mLast := some SID.Paused, mCurr := SID.BeforeExit } Key.retKey ≠
      ExitOutcome.terminated := by
  decide

/-- Claim C6, amended (confirm and cancel swapped): in the ConfirmExit state
the Return input — the same input that transitions Paused to Playing —
cancels, transitioning back to the single previously-active state through
the one-level history swap, and the Escape input terminates the process. -/
theorem beforeExit_transitions (m : GSM) (l : SID) (hl : m.mLast = some l) :
    (pauseHandleKey m Key.retKey).mCurr = SID.Playing ∧
    beforeExitHandleKey m Key.retKey =
      ExitOutcome.stay { mLast := some m.mCurr, mCurr := l } ∧
    beforeExitHandleKey m Key.escape = ExitOutcome.terminated := by
  refine ⟨rfl, ?_, rfl⟩
  simp [beforeExitHandleKey, goBack, hl]

/-- Claim C6, witness: the amended transitions evaluated on a manager sitting
in BeforeExit with Playing as the previous state. -/
theorem beforeExit_transitions_witness :
    beforeExitHandleKey { mLast := some SID.Playing, mCurr := SID.BeforeExit } Key.retKey =
      ExitOutcome.stay { mLast := some SID.BeforeExit, mCurr := SID.Playing } ∧
    beforeExitHandleKey { mLast := some SID.Playing, mCurr := SID.BeforeExit } Key.escape =
      ExitOutcome.terminated := by
  have h := beforeExit_transitions
    { mLast := some SID.Playing, mCurr := SID.BeforeExit } SID.Playing rfl
  exact ⟨h.2.1, h.2.2⟩
